import Mathlib

/-!
# Traffic light message queue and phase actor

A shallow embedding of `TrafficLight.h` / `TrafficLight.cpp`.

* `MessageQueue T` keeps the `std::deque<T> _queue` as a list, head of the list
  being `front()`.  A call that stays blocked in `_cond.wait` is the result `none`.
* `MessageQueue.Shared T` keeps, next to the queue, the calls of `receive` in
  progress: a blocked call is woken by the `notify_one` of `send` and tests the
  wait predicate again.
* `TrafficLight` keeps `_currentPhase` and the queue `_trafficLightPhase`.
* The two infinite loops (`waitForGreen`, `cycleThroughPhases`) are embedded by
  their loop bodies, run over what the queue holds and over the polled clock values.
  Clock values are signed 64-bit tick counts; their difference wraps.
-/

namespace TrafficSim

/-! ## MessageQueue -/

/-- The class `MessageQueue<T>`: `_queue` is the deque, front first.  The members
`_mutex` and `_cond` carry no data. -/
structure MessageQueue (T : Type) where
  _queue : List T
deriving DecidableEq, Repr

namespace MessageQueue

variable {T : Type}

/-- A default constructed `MessageQueue`: the deque is empty. -/
def empty : MessageQueue T := ⟨[]⟩

/-- The predicate handed to `_cond.wait` in `receive`: `!_queue.empty()`. -/
def waitPredicate (q : MessageQueue T) : Bool := !q._queue.isEmpty

/-- `MessageQueue<T>::send`: `_queue.emplace_back(msg)`. -/
def send (q : MessageQueue T) (msg : T) : MessageQueue T :=
  ⟨q._queue ++ [msg]⟩

/-- `MessageQueue<T>::receive`: `_cond.wait` lets the call go on only when the wait
predicate holds; then `msg = _queue.front()`, `_queue.pop_front()`, `return msg`.
The result `none` is a call that is still waiting. -/
def receive (q : MessageQueue T) : Option (T × MessageQueue T) :=
  if q.waitPredicate then
    q._queue.head?.map (fun msg => (msg, ⟨q._queue.tail⟩))
  else
    none

/-- Calls `send` once for each value of the list, in order. -/
def sendAll (q : MessageQueue T) : List T → MessageQueue T
  | [] => q
  | v :: vs => sendAll (q.send v) vs

/-- Calls `receive` `n` times in a row and collects the returned values; `none`
when one of the calls finds the queue empty and waits. -/
def receiveN : Nat → MessageQueue T → Option (List T × MessageQueue T)
  | 0, q => some ([], q)
  | n + 1, q =>
    match q.receive with
    | none => none
    | some (msg, q1) =>
      match receiveN n q1 with
      | none => none
      | some (msgs, q2) => some (msg :: msgs, q2)

/-- Where a call of `receive` stands: blocked inside `_cond.wait`; woken by
`notify_one` and about to test the wait predicate again; or returned with its
message. -/
inductive Call (T : Type) where
  | waiting
  | notified
  | returned (msg : T)
deriving DecidableEq, Repr

/-- The message a call has returned, when it has returned. -/
def Call.value? : Call T → Option T
  | Call.returned msg => some msg
  | _ => none

/-- A queue together with the calls of `receive` made on it so far, in the order
in which they were made. -/
structure Shared (T : Type) where
  queue : MessageQueue T
  calls : List (Call T)
deriving DecidableEq, Repr

/-- A fresh queue, no call of `receive` made yet. -/
def Shared.init : Shared T := ⟨empty, []⟩

/-- What a call of `receive` does while it holds the mutex, on entry and again
after each wake-up: when the wait predicate is false it waits, else it takes
`_queue.front()`, does `_queue.pop_front()` and returns the message. -/
def attempt (q : MessageQueue T) : MessageQueue T × Call T :=
  match q.receive with
  | none => (q, Call.waiting)
  | some (msg, q1) => (q1, Call.returned msg)

/-- Wakes the first waiting call of the list, when there is one. -/
def wakeFirst : List (Call T) → List (Call T)
  | [] => []
  | Call.waiting :: cs => Call.notified :: cs
  | c :: cs => c :: wakeFirst cs

/-- `_cond.notify_one()`: one of the calls blocked in `_cond.wait` is woken.  Which
one is not fixed; it is call `pick` when that call is waiting, else the first
waiting call; when no call is waiting nothing happens. -/
def notifyOne (calls : List (Call T)) (pick : Nat) : List (Call T) :=
  match calls[pick]? with
  | some Call.waiting => calls.set pick Call.notified
  | _ => wakeFirst calls

/-- What the threads that use the queue do, each action done under the mutex: a
new call of `receive`; a call of `send`, whose `notify_one` favours the waiting
call `pick`; a blocked call that wakes up, woken by `notify_one` or without
cause, and takes the mutex again. -/
inductive Action (T : Type) where
  | receive
  | send (msg : T) (pick : Nat)
  | resume (call : Nat)
deriving DecidableEq, Repr

/-- Whether the action is a call of `send`. -/
def Action.isSend : Action T → Bool
  | Action.send _ _ => true
  | _ => false

/-- One action on the queue and its calls.  `receive`: the new call enters
`_cond.wait(uLock, pred)` and, when the predicate holds, takes the front message.
`send`: `_queue.emplace_back(msg)` then `_cond.notify_one()`.  `resume`: a call
that has not returned tests the wait predicate again. -/
def Shared.step (s : Shared T) : Action T → Shared T
  | Action.receive => ⟨(attempt s.queue).1, s.calls ++ [(attempt s.queue).2]⟩
  | Action.send msg pick => ⟨s.queue.send msg, notifyOne s.calls pick⟩
  | Action.resume i =>
    match s.calls[i]? with
    | some Call.waiting => ⟨(attempt s.queue).1, s.calls.set i (attempt s.queue).2⟩
    | some Call.notified => ⟨(attempt s.queue).1, s.calls.set i (attempt s.queue).2⟩
    | _ => s

/-- Runs a sequence of actions. -/
def Shared.run (s : Shared T) : List (Action T) → Shared T
  | [] => s
  | a :: as => Shared.run (s.step a) as

/-- The messages returned so far, by order of call. -/
def returnedValues (calls : List (Call T)) : List T := calls.filterMap Call.value?

end MessageQueue

/-! ## TrafficLight -/

/-- The enum `TrafficLightPhase`. -/
inductive TrafficLightPhase where
  | red
  | green
deriving DecidableEq, Repr

/-- The data members of the class `TrafficLight`: the current phase and the queue
of phase messages. -/
structure TrafficLight where
  _currentPhase : TrafficLightPhase
  _trafficLightPhase : MessageQueue TrafficLightPhase
deriving DecidableEq, Repr

namespace TrafficLight

open TrafficLightPhase

/-- The constructor `TrafficLight::TrafficLight()`: `_currentPhase = red`, the
queue member is default constructed. -/
def new : TrafficLight := ⟨red, MessageQueue.empty⟩

/-- `TrafficLight::getCurrentPhase`. -/
def getCurrentPhase (tl : TrafficLight) : TrafficLightPhase := tl._currentPhase

/-- How far a call of `waitForGreen` has come: it has returned, or it waits inside
`receive` on an empty queue. -/
inductive WaitOutcome where
  | returned
  | waiting
deriving DecidableEq, Repr

/-- The outcome of `waitForGreen`, the number of calls of `receive` that have
returned a value, and the state of the traffic light. -/
structure WaitResult where
  outcome : WaitOutcome
  receives : Nat
  light : TrafficLight
deriving DecidableEq, Repr

/-- The `while(true)` loop of `TrafficLight::waitForGreen`, entered after
`receives` earlier receives: `color = _trafficLightPhase.receive()`, return when
`color == green`, else go round again. -/
def waitForGreenLoop (tl : TrafficLight) (receives : Nat) : WaitResult :=
  match h : tl._trafficLightPhase.receive with
  | none => ⟨WaitOutcome.waiting, receives, tl⟩
  | some (color, q) =>
    if color = green then
      ⟨WaitOutcome.returned, receives + 1, { tl with _trafficLightPhase := q }⟩
    else
      waitForGreenLoop { tl with _trafficLightPhase := q } (receives + 1)
termination_by tl._trafficLightPhase._queue.length
decreasing_by
  simp only [MessageQueue.receive] at h
  split at h
  · cases hq : tl._trafficLightPhase._queue with
    | nil => simp [hq] at h
    | cons a l =>
      simp only [hq, List.head?_cons, Option.map_some', List.tail_cons, Option.some.injEq,
        Prod.mk.injEq] at h
      rw [← h.2]
      simp
  · simp at h

/-- `TrafficLight::waitForGreen`. -/
def waitForGreen (tl : TrafficLight) : WaitResult := waitForGreenLoop tl 0

/-- The body of `if (durationSinceLastCycleSeconds >= cycleDurationSeconds)` in
`cycleThroughPhases`, up to `is_sent.wait()`: toggle `_currentPhase`, copy it to
`color`, send `color` to the queue. -/
def phaseFlip (tl : TrafficLight) : TrafficLight :=
  let _currentPhase := if tl._currentPhase = red then green else red
  let color := _currentPhase
  { _currentPhase := _currentPhase, _trafficLightPhase := tl._trafficLightPhase.send color }

/-- What can happen to a traffic light: the background loop flips the phase, or a
call of `waitForGreen` takes a message with `receive`. -/
inductive Event where
  | flip
  | receive
deriving DecidableEq, Repr

/-- Runs a sequence of events, collecting the received messages; `none` when a
receive is taken on an empty queue. -/
def runEvents (tl : TrafficLight) (received : List TrafficLightPhase) :
    List Event → Option (List TrafficLightPhase × TrafficLight)
  | [] => some (received, tl)
  | Event.flip :: es => runEvents tl.phaseFlip received es
  | Event.receive :: es =>
    match tl._trafficLightPhase.receive with
    | none => none
    | some (color, q) => runEvents { tl with _trafficLightPhase := q } (received ++ [color]) es

/-- The queue agrees with the current phase: neighbouring messages differ, and the
last message, when there is one, is the current phase. -/
def Consistent (tl : TrafficLight) : Prop :=
  List.Chain' (fun a b => a ≠ b) tl._trafficLightPhase._queue ∧
    ∀ m ∈ tl._trafficLightPhase._queue.getLast?, m = tl._currentPhase

end TrafficLight

/-! ## The loop of cycleThroughPhases -/

namespace MessageQueue

variable {T : Type}

theorem receive_cons (msg : T) (rest : List T) :
    receive (⟨msg :: rest⟩ : MessageQueue T) = some (msg, ⟨rest⟩) := by
  simp [receive, waitPredicate]

theorem receive_nil : receive (⟨[]⟩ : MessageQueue T) = none := by
  simp [receive, waitPredicate]

theorem receive_eq_some {q q1 : MessageQueue T} {msg : T} (h : q.receive = some (msg, q1)) :
    q._queue = msg :: q1._queue := by
  obtain ⟨l⟩ := q
  cases l with
  | nil => simp [receive_nil] at h
  | cons a l =>
    rw [receive_cons] at h
    simp only [Option.some.injEq, Prod.mk.injEq] at h
    obtain ⟨rfl, rfl⟩ := h
    rfl

theorem sendAll_queue (q : MessageQueue T) (vs : List T) :
    (sendAll q vs)._queue = q._queue ++ vs := by
  induction vs generalizing q with
  | nil => simp [sendAll]
  | cons v vs ih => simp [sendAll, ih, send]

theorem receiveN_append (vs rest : List T) :
    receiveN vs.length (⟨vs ++ rest⟩ : MessageQueue T) = some (vs, ⟨rest⟩) := by
  induction vs with
  | nil => simp [receiveN]
  | cons v vs ih =>
    simp only [List.length_cons, List.cons_append, receiveN, receive_cons, ih]

theorem attempt_nil : attempt (⟨[]⟩ : MessageQueue T) = (⟨[]⟩, Call.waiting) := by
  simp [attempt, receive_nil]

theorem attempt_cons (msg : T) (rest : List T) :
    attempt (⟨msg :: rest⟩ : MessageQueue T) = (⟨rest⟩, Call.returned msg) := by
  simp [attempt, receive_cons]

/-- Putting a call that has not returned in the place of one that has not returned
leaves the returned messages as they are. -/
theorem returnedValues_set (calls : List (Call T)) (i : Nat) (c d : Call T)
    (hi : calls[i]? = some c) (hc : c.value? = none) (hd : d.value? = none) :
    returnedValues (calls.set i d) = returnedValues calls := by
  induction calls generalizing i with
  | nil => simp at hi
  | cons a l ih =>
    cases i with
    | zero =>
      simp only [List.getElem?_cons_zero, Option.some.injEq] at hi
      subst hi
      simp [returnedValues, List.filterMap_cons, hc, hd]
    | succ i =>
      simp only [List.getElem?_cons_succ] at hi
      have := ih i hi
      simp only [returnedValues, List.set_cons_succ, List.filterMap_cons] at this ⊢
      rw [this]

/-- On an empty queue an action that is not a send leaves the queue empty and
returns no message to any call. -/
theorem step_empty_no_send (calls : List (Call T)) (a : Action T) (ha : a.isSend = false) :
    (Shared.step ⟨⟨[]⟩, calls⟩ a).queue = ⟨[]⟩ ∧
    returnedValues (Shared.step ⟨⟨[]⟩, calls⟩ a).calls = returnedValues calls := by
  cases a with
  | receive =>
    simp [Shared.step, attempt_nil, returnedValues, Call.value?]
  | send msg pick => simp [Action.isSend] at ha
  | resume i =>
    simp only [Shared.step, attempt_nil]
    cases hi : calls[i]? with
    | none => simp
    | some c =>
      cases c with
      | waiting =>
        exact ⟨rfl, returnedValues_set calls i _ _ hi rfl rfl⟩
      | notified =>
        exact ⟨rfl, returnedValues_set calls i _ _ hi rfl rfl⟩
      | returned m => simp

/-- While the queue is empty and no send is done, no call returns. -/
theorem run_empty_no_send (calls : List (Call T)) (as : List (Action T))
    (has : ∀ a ∈ as, a.isSend = false) :
    (Shared.run ⟨⟨[]⟩, calls⟩ as).queue = ⟨[]⟩ ∧
    returnedValues (Shared.run ⟨⟨[]⟩, calls⟩ as).calls = returnedValues calls := by
  induction as generalizing calls with
  | nil => exact ⟨rfl, rfl⟩
  | cons a as ih =>
    obtain ⟨hq, hr⟩ := step_empty_no_send calls a (has a (List.mem_cons_self _ _))
    have hs : Shared.step ⟨⟨[]⟩, calls⟩ a
        = ⟨⟨[]⟩, (Shared.step ⟨⟨[]⟩, calls⟩ a).calls⟩ := by
      cases hst : Shared.step ⟨⟨[]⟩, calls⟩ a with
      | mk q cs =>
        rw [hst] at hq
        simp only at hq
        simp [hq]
    have h := ih (Shared.step ⟨⟨[]⟩, calls⟩ a).calls
      (fun b hb => has b (List.mem_cons_of_mem _ hb))
    rw [← hs] at h
    simp only [Shared.run]
    exact ⟨h.1, h.2.trans hr⟩

/-- A single waiting call that wakes up on an empty queue goes on waiting. -/
theorem run_resumes_waiting (n : Nat) :
    Shared.run (⟨⟨[]⟩, [Call.waiting]⟩ : Shared T) (List.replicate n (Action.resume 0))
      = ⟨⟨[]⟩, [Call.waiting]⟩ := by
  induction n with
  | zero => rfl
  | succ n ih =>
    rw [List.replicate_succ, Shared.run]
    have : Shared.step (⟨⟨[]⟩, [Call.waiting]⟩ : Shared T) (Action.resume 0)
        = ⟨⟨[]⟩, [Call.waiting]⟩ := by
      simp [Shared.step, attempt_nil]
    rw [this, ih]

theorem run_append (s : Shared T) (as bs : List (Action T)) :
    Shared.run s (as ++ bs) = Shared.run (Shared.run s as) bs := by
  induction as generalizing s with
  | nil => rfl
  | cons a as ih => exact ih (s.step a)

theorem getElem?_middle (pre post : List (Call T)) (c : Call T) :
    (pre ++ c :: post)[pre.length]? = some c := by
  induction pre with
  | nil => simp
  | cons a l ih =>
    rw [List.cons_append, List.length_cons, List.getElem?_cons_succ]
    exact ih

theorem set_middle (pre post : List (Call T)) (c d : Call T) :
    (pre ++ c :: post).set pre.length d = pre ++ d :: post := by
  induction pre with
  | nil => simp
  | cons a l ih => simp [ih]

end MessageQueue

/-! ## Lemmas on the traffic light -/

namespace TrafficLight

open TrafficLightPhase

theorem waitForGreenLoop_nil (c : TrafficLightPhase) (n : Nat) :
    waitForGreenLoop ⟨c, ⟨[]⟩⟩ n = ⟨WaitOutcome.waiting, n, ⟨c, ⟨[]⟩⟩⟩ := by
  rw [waitForGreenLoop]
  split
  · rfl
  · next color q h => simp [MessageQueue.receive_nil] at h

theorem waitForGreenLoop_green (c : TrafficLightPhase) (rest : List TrafficLightPhase)
    (n : Nat) :
    waitForGreenLoop ⟨c, ⟨green :: rest⟩⟩ n = ⟨WaitOutcome.returned, n + 1, ⟨c, ⟨rest⟩⟩⟩ := by
  rw [waitForGreenLoop]
  split
  · next h => simp [MessageQueue.receive_cons] at h
  · next color q h =>
    simp only [MessageQueue.receive_cons, Option.some.injEq, Prod.mk.injEq] at h
    obtain ⟨rfl, rfl⟩ := h
    simp

theorem waitForGreenLoop_red (c : TrafficLightPhase) (rest : List TrafficLightPhase)
    (n : Nat) :
    waitForGreenLoop ⟨c, ⟨red :: rest⟩⟩ n = waitForGreenLoop ⟨c, ⟨rest⟩⟩ (n + 1) := by
  rw [waitForGreenLoop]
  split
  · next h => simp [MessageQueue.receive_cons] at h
  · next color q h =>
    simp only [MessageQueue.receive_cons, Option.some.injEq, Prod.mk.injEq] at h
    obtain ⟨rfl, rfl⟩ := h
    simp

/-- The loop on a queue of `k` reds, a green and a rest. -/
theorem waitForGreenLoop_reds_green (c : TrafficLightPhase) (k : Nat)
    (rest : List TrafficLightPhase) (n : Nat) :
    waitForGreenLoop ⟨c, ⟨List.replicate k red ++ green :: rest⟩⟩ n
      = ⟨WaitOutcome.returned, n + k + 1, ⟨c, ⟨rest⟩⟩⟩ := by
  induction k generalizing n with
  | zero => simp [waitForGreenLoop_green]
  | succ k ih =>
    rw [List.replicate_succ, List.cons_append, waitForGreenLoop_red, ih]
    have : n + 1 + k + 1 = n + (k + 1) + 1 := by omega
    rw [this]

/-- The loop on a queue of `k` reds. -/
theorem waitForGreenLoop_reds (c : TrafficLightPhase) (k n : Nat) :
    waitForGreenLoop ⟨c, ⟨List.replicate k red⟩⟩ n
      = ⟨WaitOutcome.waiting, n + k, ⟨c, ⟨[]⟩⟩⟩ := by
  induction k generalizing n with
  | zero => simp [waitForGreenLoop_nil]
  | succ k ih =>
    rw [List.replicate_succ, waitForGreenLoop_red, ih]
    have : n + 1 + k = n + (k + 1) := by omega
    rw [this]

/-- A list of phases is all red, or some reds, the first green and a rest. -/
theorem phases_split (msgs : List TrafficLightPhase) :
    msgs = List.replicate msgs.length red ∨
    ∃ k rest, msgs = List.replicate k red ++ green :: rest := by
  induction msgs with
  | nil => left; rfl
  | cons a l ih =>
    cases a with
    | green => right; exact ⟨0, l, rfl⟩
    | red =>
      rcases ih with h | ⟨k, rest, h⟩
      · left
        rw [List.length_cons, List.replicate_succ, ← h]
      · right
        refine ⟨k + 1, rest, ?_⟩
        rw [List.replicate_succ, List.cons_append, ← h]

/-- When `waitForGreen` returns, the queue held some reds, a green and what is
left over, and the current phase is untouched. -/
theorem waitForGreen_returned (tl : TrafficLight)
    (h : (waitForGreen tl).outcome = WaitOutcome.returned) :
    ∃ k rest, tl._trafficLightPhase._queue = List.replicate k red ++ green :: rest ∧
      waitForGreen tl = ⟨WaitOutcome.returned, k + 1, ⟨tl._currentPhase, ⟨rest⟩⟩⟩ := by
  obtain ⟨c, ⟨msgs⟩⟩ := tl
  rcases phases_split msgs with hm | ⟨k, rest, hm⟩
  · rw [hm, waitForGreen, waitForGreenLoop_reds] at h
    simp at h
  · refine ⟨k, rest, hm, ?_⟩
    simp only
    rw [hm, waitForGreen, waitForGreenLoop_reds_green, Nat.zero_add]

theorem consistent_new : Consistent new := by
  simp [Consistent, new, MessageQueue.empty]

theorem consistent_phaseFlip (tl : TrafficLight) (h : Consistent tl) :
    Consistent tl.phaseFlip := by
  obtain ⟨c, ⟨q⟩⟩ := tl
  obtain ⟨hch, hlast⟩ := h
  simp only at hch hlast
  refine ⟨?_, ?_⟩
  · simp only [phaseFlip, MessageQueue.send]
    rw [List.chain'_append]
    refine ⟨hch, List.chain'_singleton _, ?_⟩
    intro x hx y hy
    rw [hlast x hx]
    simp only [List.head?_cons, Option.mem_def, Option.some.injEq] at hy
    subst hy
    cases c <;> simp
  · simp [phaseFlip, MessageQueue.send]

theorem consistent_receive (tl : TrafficLight) (h : Consistent tl)
    (color : TrafficLightPhase) (q : MessageQueue TrafficLightPhase)
    (hr : tl._trafficLightPhase.receive = some (color, q)) :
    Consistent { tl with _trafficLightPhase := q } := by
  have hq := MessageQueue.receive_eq_some hr
  obtain ⟨hch, hlast⟩ := h
  rw [hq] at hch hlast
  refine ⟨hch.tail, ?_⟩
  intro m hm
  simp only at hm ⊢
  apply hlast
  cases hq1 : q._queue with
  | nil => simp [hq1] at hm
  | cons a l =>
    rw [hq1] at hm
    rw [List.getLast?_cons_cons]
    exact hm

/-- Every state reached from a consistent one is consistent, and the queue length
moves with the numbers of flips and receives. -/
theorem runEvents_inv (es : List Event) (tl tl1 : TrafficLight)
    (received out : List TrafficLightPhase) (hc : Consistent tl)
    (h : runEvents tl received es = some (out, tl1)) :
    Consistent tl1 ∧
    tl1._trafficLightPhase._queue.length + es.count Event.receive
      = tl._trafficLightPhase._queue.length + es.count Event.flip := by
  induction es generalizing tl received with
  | nil =>
    simp only [runEvents, Option.some.injEq, Prod.mk.injEq] at h
    obtain ⟨-, rfl⟩ := h
    exact ⟨hc, by simp⟩
  | cons e es ih =>
    cases e with
    | flip =>
      simp only [runEvents] at h
      obtain ⟨h1, h2⟩ := ih _ _ (consistent_phaseFlip tl hc) h
      refine ⟨h1, ?_⟩
      have hlen : tl.phaseFlip._trafficLightPhase._queue.length
          = tl._trafficLightPhase._queue.length + 1 := by
        simp [phaseFlip, MessageQueue.send]
      rw [hlen] at h2
      simp only [List.count_cons_self]
      rw [List.count_cons_of_ne (by decide)]
      omega
    | receive =>
      simp only [runEvents] at h
      cases hr : tl._trafficLightPhase.receive with
      | none => simp [hr] at h
      | some r =>
        obtain ⟨color, q⟩ := r
        simp only [hr] at h
        obtain ⟨h1, h2⟩ := ih _ _ (consistent_receive tl hc color q hr) h
        refine ⟨h1, ?_⟩
        have hlen := congrArg List.length (MessageQueue.receive_eq_some hr)
        simp only [List.length_cons] at hlen h2
        simp only [List.count_cons_self]
        rw [List.count_cons_of_ne (by decide)]
        omega

/-- In a list whose neighbours differ, the last element is the first one exactly
when an even number of elements follow the first. -/
theorem last_eq_head_iff (a c : TrafficLightPhase) (l : List TrafficLightPhase)
    (hch : List.Chain' (fun a b => a ≠ b) (a :: l)) (hl : (a :: l).getLast? = some c) :
    c = a ↔ Even l.length := by
  induction l generalizing a with
  | nil =>
    simp only [List.getLast?_singleton, Option.some.injEq] at hl
    simp [hl]
  | cons b l ih =>
    rw [List.getLast?_cons_cons] at hl
    rw [List.chain'_cons] at hch
    have h1 := ih b hch.2 hl
    have hab := hch.1
    rw [List.length_cons, Nat.even_add_one, ← h1]
    cases a <;> cases b <;> cases c <;> simp at hab ⊢

/-- The state after `n` flips of a fresh traffic light. -/
theorem iterate_phaseFlip_new (n : Nat) :
    phaseFlip^[n] new
      = ⟨if n % 2 = 0 then red else green,
         ⟨(List.range n).map (fun i => if (i + 1) % 2 = 1 then green else red)⟩⟩ := by
  induction n with
  | zero => rfl
  | succ n ih =>
    rw [Function.iterate_succ_apply', ih, List.range_succ, List.map_append]
    rcases Nat.mod_two_eq_zero_or_one n with h | h
    · have h1 : (n + 1) % 2 = 1 := by omega
      simp [phaseFlip, MessageQueue.send, h, h1]
    · have h1 : (n + 1) % 2 = 0 := by omega
      simp [phaseFlip, MessageQueue.send, h, h1]

theorem consistent_iterate_phaseFlip (n : Nat) : Consistent (phaseFlip^[n] new) := by
  induction n with
  | zero => exact consistent_new
  | succ n ih =>
    rw [Function.iterate_succ_apply']
    exact consistent_phaseFlip _ ih

/-- Continuing the loop after `k` receives gives what the loop gives on a queue
that holds `k` reds before the rest. -/
theorem waitForGreenLoop_resume (c : TrafficLightPhase) (k n : Nat)
    (more : List TrafficLightPhase) :
    waitForGreenLoop ⟨c, ⟨List.replicate k red ++ more⟩⟩ n
      = waitForGreenLoop ⟨c, ⟨more⟩⟩ (n + k) := by
  induction k generalizing n with
  | zero => simp
  | succ k ih =>
    rw [List.replicate_succ, List.cons_append, waitForGreenLoop_red, ih]
    have : n + 1 + k = n + (k + 1) := by omega
    rw [this]

end TrafficLight

/-! ## Lemmas on the cycle loop -/

/-- C1 (FIFO): starting from an empty queue, `send v1, ..., send vn` followed by
`n` calls of `receive` returns exactly `v1, ..., vn` in that order, and leaves the
queue empty. -/
theorem fifo_send_then_receive {T : Type} (vs : List T) :
    MessageQueue.receiveN vs.length (MessageQueue.sendAll MessageQueue.empty vs)
      = some (vs, MessageQueue.empty) := by
  have h : MessageQueue.sendAll MessageQueue.empty vs = (⟨vs ++ []⟩ : MessageQueue T) := by
    have := MessageQueue.sendAll_queue (MessageQueue.empty : MessageQueue T) vs
    cases hq : MessageQueue.sendAll (MessageQueue.empty : MessageQueue T) vs with
    | mk l =>
      rw [hq] at this
      simp [MessageQueue.empty] at this
      simp [this]
  rw [h]
  exact MessageQueue.receiveN_append vs []

/-- C3 (blocking correctness): `receive` returns a value exactly when its wait
predicate holds, and that is exactly when the queue is not empty; while the queue
is empty and no send is done, whatever calls are made or woken, no call returns;
a call of `receive` made on an empty queue waits, also through wake-ups without
a send, and once `send v` has been done it is notified, and on waking it returns
`v` and leaves the queue empty; the same holds for a waiting call among other
calls when `notify_one` wakes it; and a call made on a queue with head `h`
returns `h` at once and leaves the rest. -/
theorem blocking_correctness {T : Type} :
    (∀ q : MessageQueue T, (q.receive.isSome ↔ q.waitPredicate = true) ∧
      (q.waitPredicate = true ↔ q._queue ≠ [])) ∧
    (∀ (calls : List (MessageQueue.Call T)) (as : List (MessageQueue.Action T)),
      (∀ a ∈ as, a.isSend = false) →
      (MessageQueue.Shared.run ⟨MessageQueue.empty, calls⟩ as).queue = MessageQueue.empty ∧
      MessageQueue.returnedValues (MessageQueue.Shared.run ⟨MessageQueue.empty, calls⟩ as).calls
        = MessageQueue.returnedValues calls) ∧
    (∀ (v : T) (pick n : Nat),
      MessageQueue.Shared.run (MessageQueue.Shared.init : MessageQueue.Shared T)
          (MessageQueue.Action.receive :: List.replicate n (MessageQueue.Action.resume 0))
        = ⟨MessageQueue.empty, [MessageQueue.Call.waiting]⟩ ∧
      MessageQueue.Shared.run MessageQueue.Shared.init
          (MessageQueue.Action.receive :: List.replicate n (MessageQueue.Action.resume 0)
            ++ [MessageQueue.Action.send v pick])
        = ⟨⟨[v]⟩, [MessageQueue.Call.notified]⟩ ∧
      MessageQueue.Shared.run MessageQueue.Shared.init
          (MessageQueue.Action.receive :: List.replicate n (MessageQueue.Action.resume 0)
            ++ [MessageQueue.Action.send v pick, MessageQueue.Action.resume 0])
        = ⟨MessageQueue.empty, [MessageQueue.Call.returned v]⟩) ∧
    (∀ (pre post : List (MessageQueue.Call T)) (v : T),
      MessageQueue.Shared.run ⟨MessageQueue.empty, pre ++ MessageQueue.Call.waiting :: post⟩
          [MessageQueue.Action.send v pre.length, MessageQueue.Action.resume pre.length]
        = ⟨MessageQueue.empty, pre ++ MessageQueue.Call.returned v :: post⟩) ∧
    (∀ (h : T) (rest : List T) (calls : List (MessageQueue.Call T)),
      MessageQueue.Shared.step ⟨⟨h :: rest⟩, calls⟩ MessageQueue.Action.receive
        = ⟨⟨rest⟩, calls ++ [MessageQueue.Call.returned h]⟩) ∧
    (∀ (h : T) (rest : List T),
      (⟨h :: rest⟩ : MessageQueue T).receive = some (h, ⟨rest⟩)) := by
  have hissue : ∀ n : Nat, MessageQueue.Shared.run (MessageQueue.Shared.init : MessageQueue.Shared T)
      (MessageQueue.Action.receive :: List.replicate n (MessageQueue.Action.resume 0))
        = ⟨MessageQueue.empty, [MessageQueue.Call.waiting]⟩ := by
    intro n
    have h0 : MessageQueue.Shared.step (MessageQueue.Shared.init : MessageQueue.Shared T)
        MessageQueue.Action.receive = ⟨⟨[]⟩, [MessageQueue.Call.waiting]⟩ := by
      simp [MessageQueue.Shared.step, MessageQueue.Shared.init, MessageQueue.empty,
        MessageQueue.attempt_nil]
    rw [MessageQueue.Shared.run, h0, MessageQueue.run_resumes_waiting]
    rfl
  refine ⟨fun q => ?_, fun calls as has => MessageQueue.run_empty_no_send calls as has,
    fun v pick n => ⟨hissue n, ?_, ?_⟩, fun pre post v => ?_, fun h rest calls => ?_,
    MessageQueue.receive_cons⟩
  · obtain ⟨l⟩ := q
    cases l <;> simp [MessageQueue.receive, MessageQueue.waitPredicate]
  · rw [MessageQueue.run_append, hissue n]
    cases pick <;>
      simp [MessageQueue.Shared.run, MessageQueue.Shared.step, MessageQueue.notifyOne,
        MessageQueue.wakeFirst, MessageQueue.empty, MessageQueue.send]
  · rw [MessageQueue.run_append, hissue n]
    cases pick <;>
      simp [MessageQueue.Shared.run, MessageQueue.Shared.step, MessageQueue.notifyOne,
        MessageQueue.wakeFirst, MessageQueue.empty, MessageQueue.send,
        MessageQueue.attempt_cons]
  · simp only [MessageQueue.Shared.run, MessageQueue.Shared.step, MessageQueue.notifyOne,
      MessageQueue.getElem?_middle, MessageQueue.set_middle, MessageQueue.empty,
      MessageQueue.send, List.nil_append, MessageQueue.attempt_cons]
  · simp [MessageQueue.Shared.step, MessageQueue.attempt_cons]

/-! ## Theorems on the traffic light -/

open TrafficLight TrafficLightPhase

/-- C4 (phase alternation): a fresh traffic light is red, and for every `n` the
messages pushed by the first `n` flips are green, red, green, ... (the `i`-th
message, counted from one, is green for odd `i` and red for even `i`), so that
neighbouring messages differ. -/
theorem phase_alternation :
    TrafficLight.new.getCurrentPhase = red ∧
    ∀ n : Nat,
      (phaseFlip^[n] TrafficLight.new)._trafficLightPhase._queue
        = (List.range n).map (fun i => if (i + 1) % 2 = 1 then green else red) ∧
      List.Chain' (fun a b => a ≠ b) (phaseFlip^[n] TrafficLight.new)._trafficLightPhase._queue := by
  refine ⟨rfl, fun n => ⟨?_, (consistent_iterate_phaseFlip n).1⟩⟩
  rw [iterate_phaseFlip_new]

/-- C5 (waitForGreen semantics): on `k` reds, a green and a rest, `waitForGreen`
returns after exactly `k + 1` receives and leaves the rest; on red, red, green it
returns after three receives and on each shorter delivery it is still waiting; on
`k` reds alone, and so on any messages without a green, it consumes all of them and
waits; and a call that has consumed `k` reds goes on, when more messages come, as
the loop entered after `k` receives. -/
theorem waitForGreen_semantics :
    (∀ (c : TrafficLightPhase) (k : Nat) (rest : List TrafficLightPhase),
      waitForGreen ⟨c, ⟨List.replicate k red ++ green :: rest⟩⟩
        = ⟨WaitOutcome.returned, k + 1, ⟨c, ⟨rest⟩⟩⟩) ∧
    (∀ c : TrafficLightPhase,
      waitForGreen ⟨c, ⟨[red, red, green]⟩⟩ = ⟨WaitOutcome.returned, 3, ⟨c, ⟨[]⟩⟩⟩ ∧
      (waitForGreen ⟨c, ⟨[red, red]⟩⟩).outcome = WaitOutcome.waiting ∧
      (waitForGreen ⟨c, ⟨[red]⟩⟩).outcome = WaitOutcome.waiting ∧
      (waitForGreen ⟨c, ⟨[]⟩⟩).outcome = WaitOutcome.waiting) ∧
    (∀ (c : TrafficLightPhase) (k : Nat),
      waitForGreen ⟨c, ⟨List.replicate k red⟩⟩ = ⟨WaitOutcome.waiting, k, ⟨c, ⟨[]⟩⟩⟩) ∧
    (∀ (c : TrafficLightPhase) (msgs : List TrafficLightPhase), green ∉ msgs →
      waitForGreen ⟨c, ⟨msgs⟩⟩ = ⟨WaitOutcome.waiting, msgs.length, ⟨c, ⟨[]⟩⟩⟩) ∧
    (∀ (c : TrafficLightPhase) (k : Nat) (more : List TrafficLightPhase),
      waitForGreen ⟨c, ⟨List.replicate k red ++ more⟩⟩ = waitForGreenLoop ⟨c, ⟨more⟩⟩ k) := by
  have hg : ∀ (c : TrafficLightPhase) (k : Nat) (rest : List TrafficLightPhase),
      waitForGreen ⟨c, ⟨List.replicate k red ++ green :: rest⟩⟩
        = ⟨WaitOutcome.returned, k + 1, ⟨c, ⟨rest⟩⟩⟩ := by
    intro c k rest
    rw [waitForGreen, waitForGreenLoop_reds_green, Nat.zero_add]
  have hr : ∀ (c : TrafficLightPhase) (k : Nat),
      waitForGreen ⟨c, ⟨List.replicate k red⟩⟩ = ⟨WaitOutcome.waiting, k, ⟨c, ⟨[]⟩⟩⟩ := by
    intro c k
    rw [waitForGreen, waitForGreenLoop_reds, Nat.zero_add]
  refine ⟨hg, fun c => ⟨hg c 2 [], ?_, ?_, ?_⟩, hr, fun c msgs hno => ?_, fun c k more => ?_⟩
  · rw [show [red, red] = List.replicate 2 red from rfl, hr]
  · rw [show [red] = List.replicate 1 red from rfl, hr]
  · rw [show ([] : List TrafficLightPhase) = List.replicate 0 red from rfl, hr]
  · rcases phases_split msgs with hm | ⟨k, rest, hm⟩
    · have h := hr c msgs.length
      rw [← hm] at h
      exact h
    · exact absurd (by rw [hm]; simp) hno
  · rw [waitForGreen, waitForGreenLoop_resume, Nat.zero_add]

/-- C7 (one notification per flip): a flip toggles the current phase and appends
exactly one message, the new current phase, at the tail of the queue; in a state
reached from a fresh traffic light by flips and receives there are no more
receives than flips, the queue holds the number of flips minus the number of
receives, and the last queued message, when the queue is not empty, is the
current phase. -/
theorem one_notification_per_flip (es : List Event) (received : List TrafficLightPhase)
    (tl : TrafficLight) (h : runEvents TrafficLight.new [] es = some (received, tl)) :
    (∀ tl0 : TrafficLight,
      tl0.phaseFlip.getCurrentPhase ≠ tl0.getCurrentPhase ∧
      tl0.phaseFlip._trafficLightPhase._queue
        = tl0._trafficLightPhase._queue ++ [tl0.phaseFlip.getCurrentPhase]) ∧
    es.count Event.receive ≤ es.count Event.flip ∧
    tl._trafficLightPhase._queue.length = es.count Event.flip - es.count Event.receive ∧
    (tl._trafficLightPhase._queue ≠ [] →
      tl._trafficLightPhase._queue.getLast? = some tl.getCurrentPhase) := by
  obtain ⟨hc, hlen⟩ := runEvents_inv es _ _ _ _ consistent_new h
  have h0 : TrafficLight.new._trafficLightPhase._queue.length = 0 := rfl
  rw [h0] at hlen
  refine ⟨fun tl0 => ?_, by omega, by omega, fun hne => ?_⟩
  · obtain ⟨c, q⟩ := tl0
    cases c <;> simp [phaseFlip, getCurrentPhase, MessageQueue.send]
  · cases hl : tl._trafficLightPhase._queue.getLast? with
    | none => exact absurd (List.getLast?_eq_none_iff.mp hl) hne
    | some m => rw [hc.2 m hl]; rfl

/-- Witness of C7: two flips and one receive. -/
theorem one_notification_per_flip_witness :
    [Event.flip, Event.flip, Event.receive].count Event.receive
      ≤ [Event.flip, Event.flip, Event.receive].count Event.flip ∧
    (⟨red, ⟨[red]⟩⟩ : TrafficLight)._trafficLightPhase._queue.length
      = [Event.flip, Event.flip, Event.receive].count Event.flip
        - [Event.flip, Event.flip, Event.receive].count Event.receive ∧
    ((⟨red, ⟨[red]⟩⟩ : TrafficLight)._trafficLightPhase._queue ≠ [] →
      (⟨red, ⟨[red]⟩⟩ : TrafficLight)._trafficLightPhase._queue.getLast?
        = some (⟨red, ⟨[red]⟩⟩ : TrafficLight).getCurrentPhase) :=
  (one_notification_per_flip [Event.flip, Event.flip, Event.receive] [green]
    ⟨red, ⟨[red]⟩⟩ (by decide)).2

/-- Counterexample to C8: after two flips the queue holds green, red and the
current phase is red; `waitForGreen` returns on its first receive, the green of
the first flip, and at that moment `getCurrentPhase` is red. -/
theorem waitForGreen_fresh_counterexample :
    runEvents TrafficLight.new [] [Event.flip, Event.flip]
      = some ([], ⟨red, ⟨[green, red]⟩⟩) ∧
    waitForGreen ⟨red, ⟨[green, red]⟩⟩ = ⟨WaitOutcome.returned, 1, ⟨red, ⟨[red]⟩⟩⟩ ∧
    (waitForGreen ⟨red, ⟨[green, red]⟩⟩).light.getCurrentPhase = red ∧
    ¬ (∀ (es : List Event) (received : List TrafficLightPhase) (tl : TrafficLight),
        runEvents TrafficLight.new [] es = some (received, tl) →
        (waitForGreen tl).outcome = WaitOutcome.returned →
        (waitForGreen tl).light.getCurrentPhase = green) := by
  have h1 : runEvents TrafficLight.new [] [Event.flip, Event.flip]
      = some ([], ⟨red, ⟨[green, red]⟩⟩) := by decide
  have h2 : waitForGreen ⟨red, ⟨[green, red]⟩⟩
      = ⟨WaitOutcome.returned, 1, ⟨red, ⟨[red]⟩⟩⟩ := by
    rw [waitForGreen, waitForGreenLoop_green]
  refine ⟨h1, h2, by rw [h2]; rfl, fun hall => ?_⟩
  have := hall _ _ _ h1 (by rw [h2])
  rw [h2] at this
  simp [getCurrentPhase] at this

/-- C8 (amended): in every state reached from a fresh traffic light by flips and
receives, when `waitForGreen` returns on its receive of green, `getCurrentPhase`
is green exactly when an even number of messages is left in the queue; so it is
green when the queue is left empty. -/
theorem waitForGreen_fresh_iff_even_left (es : List Event)
    (received : List TrafficLightPhase) (tl : TrafficLight)
    (h : runEvents TrafficLight.new [] es = some (received, tl))
    (hret : (waitForGreen tl).outcome = WaitOutcome.returned) :
    ((waitForGreen tl).light.getCurrentPhase = green ↔
      Even (waitForGreen tl).light._trafficLightPhase._queue.length) := by
  obtain ⟨hc, -⟩ := runEvents_inv es _ _ _ _ consistent_new h
  obtain ⟨k, rest, hq, hw⟩ := waitForGreen_returned tl hret
  rw [hw]
  simp only [getCurrentPhase]
  obtain ⟨hch, hlast⟩ := hc
  rw [hq] at hch hlast
  have hch2 : List.Chain' (fun a b => a ≠ b) (green :: rest) := (List.chain'_append.mp hch).2.1
  have hl : (green :: rest).getLast? = some tl._currentPhase := by
    have hne : green :: rest ≠ [] := by simp
    have h3 : (List.replicate k red ++ green :: rest).getLast? = (green :: rest).getLast? := by
      rw [List.getLast?_append_of_ne_nil _ hne]
    cases hg : (green :: rest).getLast? with
    | none => exact absurd (List.getLast?_eq_none_iff.mp hg) hne
    | some m =>
      rw [hlast m (by rw [h3, hg]; rfl)]
  exact last_eq_head_iff green tl._currentPhase rest hch2 hl

/-- Witness of C8 (amended): one flip, then the call returns on the green and
leaves the queue empty. -/
theorem waitForGreen_fresh_iff_even_left_witness :
    ((waitForGreen ⟨green, ⟨[green]⟩⟩).light.getCurrentPhase = green ↔
      Even (waitForGreen ⟨green, ⟨[green]⟩⟩).light._trafficLightPhase._queue.length) :=
  waitForGreen_fresh_iff_even_left [Event.flip] [] ⟨green, ⟨[green]⟩⟩ (by decide)
    (by rw [waitForGreen, waitForGreenLoop_green])

/-- C10 (waitForGreen looks only at the queue): two traffic lights with the same
queue and any current phases give the same outcome of `waitForGreen`, the same
number of receives and the same queue afterwards, and the current phase is left
as it was; with an empty queue and current phase green the call waits. -/
theorem waitForGreen_ignores_currentPhase :
    (∀ (c1 c2 : TrafficLightPhase) (q : MessageQueue TrafficLightPhase),
      (waitForGreen ⟨c1, q⟩).outcome = (waitForGreen ⟨c2, q⟩).outcome ∧
      (waitForGreen ⟨c1, q⟩).receives = (waitForGreen ⟨c2, q⟩).receives ∧
      (waitForGreen ⟨c1, q⟩).light._trafficLightPhase
        = (waitForGreen ⟨c2, q⟩).light._trafficLightPhase ∧
      (waitForGreen ⟨c1, q⟩).light._currentPhase = c1) ∧
    waitForGreen ⟨green, MessageQueue.empty⟩
      = ⟨WaitOutcome.waiting, 0, ⟨green, MessageQueue.empty⟩⟩ := by
  refine ⟨fun c1 c2 q => ?_, ?_⟩
  · obtain ⟨msgs⟩ := q
    rcases phases_split msgs with hm | ⟨k, rest, hm⟩
    · rw [hm]
      simp only [waitForGreen, waitForGreenLoop_reds]
      simp
    · rw [hm]
      simp only [waitForGreen, waitForGreenLoop_reds_green]
      simp
  · rw [waitForGreen, MessageQueue.empty, waitForGreenLoop_nil]

end TrafficSim
